import Mathlib

/-!
Verification development for the ICD-10 suggestion engine of
`src/Project/backend/healthcare_backend_app.py`.

The Python functions `load_icd_dataframe`, `suggest_icd_from_text` and
`hf_icd_suggest` are embedded as pure Lean functions.  External effects are
made explicit parameters:

* the raw text returned by `hf_inference` (a network/model call) becomes an
  oracle of type `Except Unit String`, where `Except.error` stands for an
  exception raised anywhere inside the call (transport failure, timeout, ...);
* the fuzzy matcher `fuzzywuzzy.process.extract` (an external library)
  becomes a function parameter `fz : String → List String → Nat →
  List (String × Nat)` returning `(description, score)` pairs for a query,
  a corpus and a limit;
* the reference table `ICD_LOOKUP` (a Python dict built once at startup)
  becomes an association list `List (String × String)` in insertion order;
  `ICD_DESC_LIST` is its list of values.

Machine integers do not overflow in any of this code, so scores and counts
are plain `Nat`.
-/

/-- Python's default `str.strip` whitespace test, restricted to the ASCII
whitespace characters that can actually occur here. -/
def pySpace (c : Char) : Bool :=
  c = ' ' ∨ c = '\t' ∨ c = '\n' ∨ c = '\r' ∨ c = '\x0b' ∨ c = '\x0c'

/-- Strip `pySpace` characters from both ends of a character list. -/
def stripChars (l : List Char) : List Char :=
  ((l.dropWhile pySpace).reverse.dropWhile pySpace).reverse

/-- Embedding of Python `str.strip()`. -/
def pyStrip (s : String) : String :=
  String.mk (stripChars s.toList)

/-- One suggestion record `{'code': ..., 'desc': ..., 'score': ...}` as
produced by `suggest_icd_from_text` and `hf_icd_suggest`. -/
structure Candidate where
  code : String
  desc : String
  score : Nat
deriving DecidableEq

/-- First character class `[A-TV-Z]` of the ICD-10 regex in `hf_icd_suggest`. -/
def icdHead (c : Char) : Bool :=
  (decide ('A' ≤ c) && decide (c ≤ 'T')) || (decide ('V' ≤ c) && decide (c ≤ 'Z'))

/-- Character class `[0-9A-Z]` of the ICD-10 regex in `hf_icd_suggest`. -/
def icdAl (c : Char) : Bool :=
  c.isDigit || (decide ('A' ≤ c) && decide (c ≤ 'Z'))

/-- Embedding of `re.match(r'^[A-TV-Z][0-9][0-9A-Z](?:\.[0-9A-Z]{1,4})?$', code)`
from `hf_icd_suggest` (line 470).  The code is already stripped when matched,
so `$` cannot see a trailing newline and the pattern is a full match. -/
def icd10_ok (s : String) : Bool :=
  match s.toList with
  | c₀ :: c₁ :: c₂ :: rest =>
    icdHead c₀ && c₁.isDigit && icdAl c₂ &&
      (match rest with
       | [] => true
       | '.' :: tl => decide (1 ≤ tl.length) && decide (tl.length ≤ 4) && tl.all icdAl
       | _ => false)
  | _ => false

/-- Modelled from the spec wording of claim C3: "one letter excluding U,
followed by two alphanumerics, optionally followed by a dot and 1-4
alphanumerics".  Used only to compare the claimed shape with the shape the
code actually enforces (`icd10_ok`). -/
def claimShape (s : String) : Bool :=
  match s.toList with
  | c₀ :: c₁ :: c₂ :: rest =>
    c₀.isAlpha && decide (c₀ ≠ 'U') && c₁.isAlphanum && c₂.isAlphanum &&
      (match rest with
       | [] => true
       | '.' :: tl => decide (1 ≤ tl.length) && decide (tl.length ≤ 4) && tl.all Char.isAlphanum
       | _ => false)
  | _ => false

example : icd10_ok "E11.9" = true := by decide
example : icd10_ok "11.9" = false := by decide
example : icd10_ok "AA1" = false := by decide
example : claimShape "AA1" = true := by decide

/-! ### JSON values and a model of Python `json.loads` -/

/-- Parsed JSON values, as `json.loads` produces them.  Integer literals stay
exact; a decimal/exponent literal becomes a float, stored here as an exact
decimal `m * 10 ^ (-(s : Int))` (Python stores the nearest binary double and
prints its shortest round-tripping decimal, which for the short literals this
app can meet is the literal itself; extreme magnitudes that Python would print
in scientific notation are not modelled). -/
inductive JVal where
  | jnull
  | jbool (b : Bool)
  | jint (n : Int)
  | jflt (m : Int) (s : Nat)
  | jstr (s : String)
  | jarr (xs : List JVal)
  | jobj (kvs : List (String × JVal))

/-- Insert a key into an object being parsed: Python dicts keep the first
position of a key but let a later duplicate overwrite the value. -/
def insKV (kvs : List (String × JVal)) (k : String) (v : JVal) : List (String × JVal) :=
  match kvs with
  | [] => [(k, v)]
  | (k', v') :: rest => if k' = k then (k', v) :: rest else (k', v') :: insKV rest k v

/-- JSON inter-token whitespace, exactly the set `' \t\n\r'` used by Python's
decoder. -/
def jWs (c : Char) : Bool :=
  c = ' ' ∨ c = '\t' ∨ c = '\n' ∨ c = '\r'

/-- Skip JSON whitespace. -/
def skipWs (cs : List Char) : List Char :=
  cs.dropWhile jWs

/-- Value of a hexadecimal digit. -/
def hexVal? (c : Char) : Option Nat :=
  if decide ('0' ≤ c) && decide (c ≤ '9') then some (c.toNat - '0'.toNat)
  else if decide ('a' ≤ c) && decide (c ≤ 'f') then some (c.toNat - 'a'.toNat + 10)
  else if decide ('A' ≤ c) && decide (c ≤ 'F') then some (c.toNat - 'A'.toNat + 10)
  else none

/-- Parse the body of a JSON string (the opening quote already consumed),
with the strict-mode rejection of raw control characters that Python's
decoder applies.  `\uXXXX` escapes are combined for surrogate pairs; a lone
surrogate (which Python would keep) cannot inhabit `Char`, so it is a parse
failure here — no claim exercises it. -/
def pStrChars (fuel : Nat) (acc : List Char) (cs : List Char) : Option (String × List Char) :=
  match fuel with
  | 0 => none
  | f + 1 =>
    match cs with
    | [] => none
    | '"' :: rest => some (String.mk acc.reverse, rest)
    | '\\' :: e :: rest =>
      match e with
      | '"' => pStrChars f ('"' :: acc) rest
      | '\\' => pStrChars f ('\\' :: acc) rest
      | '/' => pStrChars f ('/' :: acc) rest
      | 'b' => pStrChars f ('\x08' :: acc) rest
      | 'f' => pStrChars f ('\x0c' :: acc) rest
      | 'n' => pStrChars f ('\n' :: acc) rest
      | 'r' => pStrChars f ('\r' :: acc) rest
      | 't' => pStrChars f ('\t' :: acc) rest
      | 'u' =>
        match rest with
        | h₁ :: h₂ :: h₃ :: h₄ :: rest' =>
          match hexVal? h₁, hexVal? h₂, hexVal? h₃, hexVal? h₄ with
          | some a, some b, some c, some d =>
            let n := ((a * 16 + b) * 16 + c) * 16 + d
            if 0xD800 ≤ n ∧ n ≤ 0xDBFF then
              match rest' with
              | '\\' :: 'u' :: k₁ :: k₂ :: k₃ :: k₄ :: rest'' =>
                match hexVal? k₁, hexVal? k₂, hexVal? k₃, hexVal? k₄ with
                | some a', some b', some c', some d' =>
                  let m := ((a' * 16 + b') * 16 + c') * 16 + d'
                  if 0xDC00 ≤ m ∧ m ≤ 0xDFFF then
                    let cp := 0x10000 + (n - 0xD800) * 0x400 + (m - 0xDC00)
                    if h : cp.isValidChar then pStrChars f (Char.ofNatAux cp h :: acc) rest''
                    else none
                  else none
                | _, _, _, _ => none
              | _ => none
            else if h : n.isValidChar then pStrChars f (Char.ofNatAux n h :: acc) rest'
            else none
          | _, _, _, _ => none
        | _ => none
      | _ => none
    | c :: rest => if c.toNat < 0x20 then none else pStrChars f (c :: acc) rest

/-- Greedily take decimal digits. -/
def takeDigits (cs : List Char) : List Char × List Char :=
  (cs.takeWhile Char.isDigit, cs.dropWhile Char.isDigit)

/-- Numeric value of a digit list. -/
def digitsVal (ds : List Char) : Nat :=
  ds.foldl (fun a c => a * 10 + (c.toNat - 48)) 0

/-- Build the parsed value of a JSON number from its sign, integer part,
fraction digits and exponent, following Python: int when there is neither a
fraction nor an exponent, float otherwise. -/
def mkNum (neg : Bool) (ip : Nat) (fds : List Char) (ex : Option Int) : JVal :=
  match fds, ex with
  | [], none => JVal.jint (if neg then -(ip : Int) else (ip : Int))
  | _, _ =>
    let mant : Nat := ip * 10 ^ fds.length + digitsVal fds
    let m : Int := if neg then -(mant : Int) else (mant : Int)
    let e : Int := (ex.getD 0) - (fds.length : Int)
    if 0 ≤ e then JVal.jflt (m * 10 ^ e.toNat) 0 else JVal.jflt m (-e).toNat

/-- Parse a JSON number, following the grammar
`-?(0|[1-9][0-9]*)(\.[0-9]+)?([eE][+-]?[0-9]+)?` used by Python's decoder. -/
def pNum (cs : List Char) : Option (JVal × List Char) :=
  let (neg, cs₁) := match cs with
    | '-' :: r => (true, r)
    | _ => (false, cs)
  match cs₁ with
  | [] => none
  | c :: r =>
    let ipRest? : Option (Nat × List Char) :=
      if c = '0' then some (0, r)
      else if c.isDigit then
        let (ds, rest) := takeDigits (c :: r)
        some (digitsVal ds, rest)
      else none
    match ipRest? with
    | none => none
    | some (ip, rest) =>
      let fracRest? : Option (List Char × List Char) :=
        match rest with
        | '.' :: r₂ =>
          let (fs, r₃) := takeDigits r₂
          if fs = [] then none else some (fs, r₃)
        | _ => some ([], rest)
      match fracRest? with
      | none => none
      | some (fds, rest₂) =>
        match rest₂ with
        | e :: r₄ =>
          if e = 'e' ∨ e = 'E' then
            let (esgn, r₅) : Int × List Char := match r₄ with
              | '+' :: t => (1, t)
              | '-' :: t => (-1, t)
              | _ => (1, r₄)
            let (eds, r₆) := takeDigits r₅
            if eds = [] then none
            else some (mkNum neg ip fds (some (esgn * (digitsVal eds : Int))), r₆)
          else some (mkNum neg ip fds none, rest₂)
        | [] => some (mkNum neg ip fds none, [])

mutual

/-- Parse one JSON value, skipping leading whitespace.  The fuel only bounds
recursion depth; Python's decoder likewise fails (RecursionError, caught
upstream) on absurdly deep nesting. -/
def pVal (fuel : Nat) (cs : List Char) : Option (JVal × List Char) :=
  match fuel with
  | 0 => none
  | f + 1 =>
    match skipWs cs with
    | [] => none
    | '"' :: r => (pStrChars (r.length + 1) [] r).map (fun p => (JVal.jstr p.1, p.2))
    | '{' :: r =>
      (match skipWs r with
       | '}' :: r' => some (JVal.jobj [], r')
       | r' => pMembers f r' [])
    | '[' :: r =>
      (match skipWs r with
       | ']' :: r' => some (JVal.jarr [], r')
       | r' => pItems f r' [])
    | 't' :: 'r' :: 'u' :: 'e' :: r => some (JVal.jbool true, r)
    | 'f' :: 'a' :: 'l' :: 's' :: 'e' :: r => some (JVal.jbool false, r)
    | 'n' :: 'u' :: 'l' :: 'l' :: r => some (JVal.jnull, r)
    | c :: r => if c = '-' ∨ c.isDigit then pNum (c :: r) else none

/-- Parse the items of a non-empty JSON array. -/
def pItems (fuel : Nat) (cs : List Char) (acc : List JVal) : Option (JVal × List Char) :=
  match fuel with
  | 0 => none
  | f + 1 =>
    match pVal f cs with
    | none => none
    | some (v, rest) =>
      match skipWs rest with
      | ',' :: r₂ => pItems f r₂ (acc ++ [v])
      | ']' :: r₂ => some (JVal.jarr (acc ++ [v]), r₂)
      | _ => none

/-- Parse the members of a non-empty JSON object. -/
def pMembers (fuel : Nat) (cs : List Char) (acc : List (String × JVal)) :
    Option (JVal × List Char) :=
  match fuel with
  | 0 => none
  | f + 1 =>
    match cs with
    | '"' :: r =>
      (match pStrChars (r.length + 1) [] r with
       | none => none
       | some (k, r₂) =>
         match skipWs r₂ with
         | ':' :: r₃ =>
           (match pVal f r₃ with
            | none => none
            | some (v, r₄) =>
              match skipWs r₄ with
              | ',' :: r₅ => pMembers f (skipWs r₅) (insKV acc k v)
              | '}' :: r₅ => some (JVal.jobj (insKV acc k v), r₅)
              | _ => none)
         | _ => none)
    | _ => none

end

/-- Embedding of `json.loads`: one JSON document, nothing but whitespace
around it ("Extra data" is an error, caught by `hf_icd_suggest`). -/
def jsonParse (s : String) : Option JVal :=
  match pVal (2 * s.length + 2) s.toList with
  | some (v, rest) => if skipWs rest = [] then some v else none
  | none => none

/-! ### Python `str()` of parsed JSON values -/

/-- Normalize a float's exact decimal by removing trailing zero fraction
digits, matching the shortest-repr printing of short decimals. -/
def fltNorm : Int → Nat → Int × Nat
  | m, 0 => (m, 0)
  | m, s + 1 => if m % 10 = 0 ∧ m ≠ 0 then fltNorm (m / 10) s else (m, s + 1)

/-- Python `repr`/`str` of a float given as exact decimal `m * 10^(-s)`
(plain decimal form; the scientific-notation regime for extreme magnitudes is
not modelled, and cannot affect any claim: a float never matches the ICD-10
shape since its string starts with a digit or minus sign). -/
def fltStr (m₀ : Int) (s₀ : Nat) : String :=
  let (m, s) := fltNorm m₀ s₀
  let sign := if m < 0 then "-" else ""
  let ds := toString m.natAbs
  if s = 0 then sign ++ ds ++ ".0"
  else if ds.length ≤ s then
    sign ++ "0." ++ String.mk (List.replicate (s - ds.length) '0') ++ ds
  else
    sign ++ String.mk (ds.toList.take (ds.length - s)) ++ "." ++
      String.mk (ds.toList.drop (ds.length - s))

/-- Python `repr` escaping of a string for use inside single quotes
(backslash, quote and the common control characters; Python's further rules —
switching the quote character or `\xXX` escapes — are not modelled, and are
unreachable: container values never yield a valid ICD-10 code). -/
def reprEsc (s : String) : String :=
  String.mk (s.toList.foldr (fun c acc =>
    if c = '\\' then '\\' :: '\\' :: acc
    else if c = '\'' then '\\' :: '\'' :: acc
    else if c = '\n' then '\\' :: 'n' :: acc
    else if c = '\r' then '\\' :: 'r' :: acc
    else if c = '\t' then '\\' :: 't' :: acc
    else c :: acc) [])

mutual

/-- Python `repr()` of a parsed JSON value. -/
def pyRepr : JVal → String
  | .jnull => "None"
  | .jbool true => "True"
  | .jbool false => "False"
  | .jint n => toString n
  | .jflt m s => fltStr m s
  | .jstr s => "'" ++ reprEsc s ++ "'"
  | .jarr xs => "[" ++ String.intercalate ", " (pyReprL xs) ++ "]"
  | .jobj kvs => "\x7b" ++ String.intercalate ", " (pyReprKV kvs) ++ "\x7d"

/-- Python `repr` of the elements of a list value. -/
def pyReprL : List JVal → List String
  | [] => []
  | v :: vs => pyRepr v :: pyReprL vs

/-- Python `repr` of the members of a dict value. -/
def pyReprKV : List (String × JVal) → List String
  | [] => []
  | (k, v) :: kvs => (pyRepr (JVal.jstr k) ++ ": " ++ pyRepr v) :: pyReprKV kvs

end

/-- Python `str()` of a parsed JSON value: identity on strings, `repr`
otherwise (for every value `json.loads` can produce, `str` and `repr` agree
except on strings). -/
def pyStr : JVal → String
  | .jstr s => s
  | v => pyRepr v

/-! ### The remote strategy `hf_icd_suggest` -/

/-- Embedding of `re.search(r'\x7b[\s\S]*\x7d', text)` in `hf_icd_suggest`
(line 458): the regex is greedy, so a match runs from the first `\x7b` that
has some `\x7d` after it — equivalently the first `\x7b` — up to the last
`\x7d` of the whole text. -/
def braceSpan? (cs : List Char) : Option (List Char) :=
  let rest := cs.dropWhile (fun c => c != '{')
  let span := (rest.reverse.dropWhile (fun c => c != '}')).reverse
  if span = [] then none else some span

/-- Modelled from the spec (claim C8): "the first top-level JSON object
substring — from the first `\x7b` to its matching structural end".  Structural
matching by brace depth; braces inside JSON string literals are not special
here, but no input used to settle C8 contains any. -/
def matchDepth (d : Nat) (acc : List Char) : List Char → Option (List Char)
  | [] => none
  | c :: cs =>
    if c = '{' then matchDepth (d + 1) (c :: acc) cs
    else if c = '}' then
      (if d = 1 then some (c :: acc).reverse else matchDepth (d - 1) (c :: acc) cs)
    else matchDepth d (c :: acc) cs

/-- Modelled from the spec (claim C8): extract the first top-level JSON
object substring, `none` when the text contains no such object. -/
def firstObjSpan (cs : List Char) : Option (List Char) :=
  match cs.dropWhile (fun c => c != '{') with
  | [] => none
  | l => matchDepth 0 [] l

/-- Python `dict.get` on a parsed JSON object (`insKV` keeps keys unique). -/
def jGet? (kvs : List (String × JVal)) (k : String) : Option JVal :=
  kvs.lookup k

/-- Python `dict.get` with a default. -/
def jGetD (kvs : List (String × JVal)) (k : String) (d : JVal) : JVal :=
  (jGet? kvs k).getD d

/-- The candidate description of an accepted item:
`desc or ICD_LOOKUP.get(code, "")` (line 474), with `desc` the stripped item
description. -/
def itemDesc (kvs : List (String × JVal)) (table : List (String × String))
    (code : String) : String :=
  let dsc := pyStrip (pyStr (jGetD kvs "desc" (JVal.jstr "")))
  if dsc = "" then (table.lookup code).getD "" else dsc

/-- The `for it in items:` loop of `hf_icd_suggest` (lines 464-478).
`none` models the `AttributeError` a non-dict item raises at `it.get`
(swallowed by the enclosing `try`, so the whole call yields `[]` and earlier
results are discarded).  A dict item contributes one candidate exactly when
its stripped `code` is non-empty and matches the ICD-10 pattern; `desc` is
`itemDesc`; the score is the constant 90; the loop stops once `topn` results
exist (checked after appending). -/
def itemsLoop (table : List (String × String)) (topn : Nat) :
    List JVal → List Candidate → Option (List Candidate)
  | [], acc => some acc
  | it :: rest, acc =>
    match it with
    | .jobj kvs =>
      let code := pyStrip (pyStr (jGetD kvs "code" (JVal.jstr "")))
      if code = "" then itemsLoop table topn rest acc
      else if icd10_ok code then
        let acc' := acc ++ [⟨code, itemDesc kvs table code, 90⟩]
        if topn ≤ acc'.length then some acc' else itemsLoop table topn rest acc'
      else itemsLoop table topn rest acc
    | _ => none

/-- Processing of the parsed JSON object in `hf_icd_suggest`:
`items = obj.get("icd10", [])` followed by the item loop.  When `items` is
not a list the `for` either iterates zero times (empty string/dict) or raises
on the first element (swallowed), so every non-list value yields `[]`. -/
def hfFromParsed (v : JVal) (table : List (String × String)) (topn : Nat) : List Candidate :=
  match v with
  | .jobj kvs =>
    (match jGet? kvs "icd10" with
     | some (.jarr items) =>
       (match itemsLoop table topn items [] with
        | some r => r
        | none => [])
     | some _ => []
     | none => [])
  | _ => []

/-- Embedding of `hf_icd_suggest` (lines 443-481).  `raw` is the text
returned by `hf_inference` for the built prompt, or `Except.error ()` when
that call raises; the function's own `try ... except: return []` makes every
failure an empty result. -/
def hf_icd_suggest (raw : Except Unit String) (table : List (String × String))
    (topn : Nat) : List Candidate :=
  match raw with
  | .error _ => []
  | .ok text =>
    match braceSpan? text.toList with
    | none => []
    | some span =>
      match jsonParse (String.mk span) with
      | none => []
      | some v => hfFromParsed v table topn

/-- Modelled from the spec (claim C8): the remote strategy as the claim
describes it, parsing the first top-level JSON object substring instead of
the greedy regex span. -/
def hfClaimC8 (text : String) (table : List (String × String)) (topn : Nat) :
    List Candidate :=
  match firstObjSpan text.toList with
  | none => []
  | some span =>
    match jsonParse (String.mk span) with
    | none => []
    | some v => hfFromParsed v table topn

/-! ### Keyword extraction (the regex block of `suggest_icd_from_text`) -/

/-- Regex word character `\w` (ASCII part; the clinical vocabulary below is
pure ASCII). -/
def isWordChar (c : Char) : Bool :=
  c.isAlphanum || c = '_'

/-- Case-insensitive test that `pat` matches at the head of `s`
(`re.IGNORECASE`, ASCII case folding). -/
def ciHolds : List Char → List Char → Bool
  | [], _ => true
  | _ :: _, [] => false
  | p :: ps, c :: cs => p.toLower = c.toLower && ciHolds ps cs

/-- Word boundary `\b` after `n` matched characters (every vocabulary
alternative ends in a word character). -/
def wordEnd (cs : List Char) (n : Nat) : Bool :=
  match cs.drop n with
  | [] => true
  | c :: _ => !(isWordChar c)

/-- Try the alternatives of one pattern, in order, at the current position;
return the length matched.  Mirrors ordered regex alternation: an alternative
whose trailing `\b` fails is backtracked to the next one. -/
def firstAltAt (alts : List (List Char)) (cs : List Char) : Option Nat :=
  match alts with
  | [] => none
  | a :: rest => if ciHolds a cs && wordEnd cs a.length then some a.length else firstAltAt rest cs

/-- Embedding of `re.search(r'\b(alt|...)\b', text, re.IGNORECASE).group(1)`:
scan left to right; a position qualifies only when the preceding character is
not a word character (every alternative begins with a word character, so this
is the leading `\b`); the first qualifying position wins, and the matched
slice of the original text is returned. -/
def scanKw (alts : List (List Char)) : Bool → List Char → Option String
  | _, [] => none
  | prevW, c :: rest =>
    if prevW then scanKw alts (isWordChar c) rest
    else
      match firstAltAt alts (c :: rest) with
      | some n => some (String.mk ((c :: rest).take n))
      | none => scanKw alts (isWordChar c) rest

/-- The `condition_patterns` list of `suggest_icd_from_text` (lines 292-306),
one entry per pattern, alternatives in source order. -/
def conditionPatterns : List (List String) :=
  [ ["hypertension", "high blood pressure", "HTN"],
    ["diabetes", "diabetic", "DM"],
    ["pneumonia", "pneumonitis"],
    ["infection", "sepsis", "bacteremia"],
    ["tumor", "cancer", "carcinoma", "neoplasm", "malignancy"],
    ["stroke", "CVA", "cerebrovascular"],
    ["MI", "myocardial infarction", "heart attack"],
    ["asthma", "COPD", "chronic obstructive"],
    ["anemia", "low hemoglobin"],
    ["encephalopathy", "encephalitis"],
    ["seizure", "epilepsy"],
    ["headache", "migraine"],
    ["fracture", "broken bone"] ]

/-- The keyword loop of `suggest_icd_from_text` (lines 308-310): for each
pattern in order, append the first match found in the text, if any. -/
def extractKeywords (text : String) : List String :=
  conditionPatterns.filterMap (fun alts => scanKw (alts.map String.toList) false text.toList)

/-! ### The heuristic strategy (fallback path of `suggest_icd_from_text`) -/

/-- Reverse lookup `[k for k, v in ICD_LOOKUP.items() if v == desc]`. -/
def codesFor (table : List (String × String)) (d : String) : List String :=
  (table.filter (fun p => p.2 = d)).map Prod.fst

/-- The inner `for c in codes:` loop of the bulk phase (lines 325-330):
append each unseen code, breaking once `topn` results exist. -/
def addCodes (topn : Nat) (d : String) (sc : Nat) :
    List String → List Candidate × List String → List Candidate × List String
  | [], st => st
  | c :: cs, (res, seen) =>
    if c ∈ seen then addCodes topn d sc cs (res, seen)
    else
      let res' := res ++ [⟨c, d, sc⟩]
      if topn ≤ res'.length then (res', c :: seen)
      else addCodes topn d sc cs (res', c :: seen)

/-- The outer `for desc, score in matches:` loop of the bulk phase
(lines 320-332): skip scores below 40, otherwise add the codes of the
description, breaking once `topn` results exist. -/
def bulkLoop (table : List (String × String)) (topn : Nat) :
    List (String × Nat) → List Candidate × List String → List Candidate × List String
  | [], st => st
  | (d, sc) :: ms, st =>
    if sc < 40 then bulkLoop table topn ms st
    else
      let st' := addCodes topn d sc (codesFor table d) st
      if topn ≤ st'.1.length then st' else bulkLoop table topn ms st'

/-- The inner code loop of the keyword backfill (lines 341-344): append each
unseen code with no bound. -/
def addCodesNB (d : String) (sc : Nat) :
    List String → List Candidate × List String → List Candidate × List String
  | [], st => st
  | c :: cs, (res, seen) =>
    if c ∈ seen then addCodesNB d sc cs (res, seen)
    else addCodesNB d sc cs (res ++ [⟨c, d, sc⟩], c :: seen)

/-- One keyword of the backfill phase (lines 337-344): fuzzy-rank the keyword
alone with limit 2 and add the codes of every match scoring at least 50. -/
def kwStep (fz : String → List String → Nat → List (String × Nat))
    (table : List (String × String)) (descs : List String) (kw : String)
    (st : List Candidate × List String) : List Candidate × List String :=
  (fz kw descs 2).foldl
    (fun acc m => if 50 ≤ m.2 then addCodesNB m.1 m.2 (codesFor table m.1) acc else acc) st

/-- The `for keyword in medical_keywords[:3]:` loop of the backfill phase. -/
def kwLoop (fz : String → List String → Nat → List (String × Nat))
    (table : List (String × String)) (descs : List String) :
    List String → List Candidate × List String → List Candidate × List String
  | [], st => st
  | kw :: kws, st => kwLoop fz table descs kws (kwStep fz table descs kw st)

/-- The heuristic (non-remote) path of `suggest_icd_from_text`
(lines 284-346): empty table short-circuits to `[]`; otherwise extract
keywords, fuzzy-rank `text + " " + " ".join(keywords)` against the
description corpus with limit `2 * topn`, collect candidates in the bulk
phase, backfill from the first three keywords when fewer than two candidates
were collected and at least one keyword exists, and truncate to `topn`. -/
def heuristic_suggest (fz : String → List String → Nat → List (String × Nat))
    (table : List (String × String)) (text : String) (topn : Nat) : List Candidate :=
  if table = [] then []
  else
    let kws := extractKeywords text
    let searchText := text ++ " " ++ String.intercalate " " kws
    let descs := table.map Prod.snd
    let st := bulkLoop table topn (fz searchText descs (topn * 2)) ([], [])
    let st' := if st.1.length < 2 ∧ kws ≠ [] then kwLoop fz table descs (kws.take 3) st else st
    st'.1.take topn

/-! ### The public entry point `suggest_icd_from_text` -/

/-- Truthiness of `HF_API_TOKEN` (`os.getenv` yields `None` when unset; an
empty string is also falsy). -/
def tokenSet : Option String → Bool
  | none => false
  | some s => decide (s ≠ "")

/-- Embedding of `suggest_icd_from_text(text, topn)` (lines 275-346): when a
HF credential is configured, try `hf_icd_suggest`; a non-empty remote result
is returned truncated to `topn`; otherwise fall back to the heuristic path.
`raw` is the remote response oracle — it is consulted only on the remote
path. -/
def suggest_icd_from_text (token : Option String) (raw : Except Unit String)
    (fz : String → List String → Nat → List (String × Nat))
    (table : List (String × String)) (text : String) (topn : Nat) : List Candidate :=
  if tokenSet token then
    let llm := hf_icd_suggest raw table topn
    if llm = [] then heuristic_suggest fz table text topn else llm.take topn
  else heuristic_suggest fz table text topn

/-! ### The reference table loader `load_icd_dataframe` -/

/-- Cell test of the fallback branch (line 257): raw length at most 10, at
least one letter and at least one digit (Python `str.isalpha`/`str.isdigit`
on the ASCII data in scope). -/
def isCodeCell (v : String) : Bool :=
  decide (v.length ≤ 10) && v.toList.any Char.isAlpha && v.toList.any Char.isDigit

/-- Description-candidate test of the fallback branch (line 260): raw length
strictly between 10 and 400. -/
def isDescCell (v : String) : Bool :=
  decide (10 < v.length) && decide (v.length < 400)

/-- The description the fallback branch pairs with every code of a row:
`desc_candidates[0].strip() if desc_candidates else ''` (line 261), where
`desc_candidates` filters the row's cells by `isDescCell`. -/
def rowDesc (row : List String) : String :=
  match row.find? isDescCell with
  | some x => pyStrip x
  | none => ""

/-- The fallback branch of `load_icd_dataframe` for one row (lines 254-263):
each cell passing `isCodeCell` emits the pair of its stripped value with the
row's description, provided both are non-empty. -/
def rowPairs (row : List String) : List (String × String) :=
  row.foldl (fun acc v =>
    if isCodeCell v then
      (if pyStrip v ≠ "" ∧ rowDesc row ≠ "" then acc ++ [(pyStrip v, rowDesc row)] else acc)
    else acc) []

/-- Modelled from the spec wording of claim C7: a cell whose trimmed length
is at most 10 with a letter and a digit is a code, and the longest remaining
cell with raw length in (10, 400) is its description.  Used only to compare
the claimed pairing with `rowPairs`. -/
def longestCell (l : List String) : Option String :=
  l.foldl (fun b x =>
    match b with
    | none => some x
    | some y => if y.length < x.length then some x else some y) none

/-- Modelled from the spec wording of claim C7 (code test on the trimmed
cell, longest remaining description cell). -/
def rowPairsClaim (row : List String) : List (String × String) :=
  row.foldl (fun acc v =>
    if decide ((pyStrip v).length ≤ 10) && v.toList.any Char.isAlpha
        && v.toList.any Char.isDigit then
      match longestCell ((row.filter (fun x => x ≠ v)).filter isDescCell) with
      | some d => acc ++ [(pyStrip v, pyStrip d)]
      | none => acc
    else acc) []

/-- The deduplication pass of `load_icd_dataframe` (lines 264-267), with the
accumulated dict as an association list in insertion order: a pair is kept
when its code is not yet bound and its description is non-empty. -/
def dedupAux : List (String × String) → List (String × String) → List (String × String)
  | acc, [] => acc
  | acc, (c, d) :: rest =>
    if (acc.lookup c).isNone ∧ d ≠ "" then dedupAux (acc ++ [(c, d)]) rest
    else dedupAux acc rest

/-- The reference table built by `load_icd_dataframe` from the emitted pairs:
`seen = \x7b\x7d; for c, d in pairs: if c not in seen and d: seen[c] = d`. -/
def dedupPairs (pairs : List (String × String)) : List (String × String) :=
  dedupAux [] pairs

/-- First description a code should receive according to claim C6: the
description of the first pair carrying that code with a non-empty
description. -/
def firstDesc (pairs : List (String × String)) (c : String) : Option String :=
  ((pairs.filter (fun p => decide (p.1 = c ∧ p.2 ≠ ""))).head?).map Prod.snd

/-! ### Helper lemmas -/

/-- A character that passes `Char.isAlpha` is not Python whitespace. -/
lemma alpha_not_pySpace {c : Char} (h : c.isAlpha = true) : pySpace c = false := by
  simp only [pySpace, decide_eq_false_iff_not]
  rintro (rfl | rfl | rfl | rfl | rfl | rfl) <;> exact absurd h (by decide)

/-- Stripping keeps a string containing a letter non-empty. -/
lemma pyStrip_ne_empty {s : String} (h : s.toList.any Char.isAlpha = true) :
    pyStrip s ≠ "" := by
  obtain ⟨c, hc, hca⟩ := List.any_eq_true.mp h
  have hcs : pySpace c = false := alpha_not_pySpace hca
  intro he
  have h0 : stripChars s.toList = [] := by
    have := congrArg String.toList he
    simpa [pyStrip] using this
  unfold stripChars at h0
  rw [List.reverse_eq_nil_iff] at h0
  have h1 : c ∈ s.toList.dropWhile pySpace := by
    rcases (List.mem_append.mp
      (by simpa [List.takeWhile_append_dropWhile] using hc :
        c ∈ s.toList.takeWhile pySpace ++ s.toList.dropWhile pySpace)) with h' | h'
    · exact absurd (List.mem_takeWhile_imp h') (by simp [hcs])
    · exact h'
  have h2 : c ∈ (s.toList.dropWhile pySpace).reverse := List.mem_reverse.mpr h1
  have := List.dropWhile_eq_nil_iff.mp h0 c h2
  simp [hcs] at this

/-! ### Claim C1 -/

/-- C1: `suggest_icd_from_text` is a strict fallback: with a configured
credential and a non-empty remote result, that result truncated to `topn` is
returned; otherwise the heuristic result is returned; without a credential
the result does not depend on the remote oracle at all (the remote strategy
is never invoked); the result is always one of the two, never a merge. -/
theorem c1_suggest_strict_fallback (token : Option String) (raw : Except Unit String)
    (fz : String → List String → Nat → List (String × Nat))
    (table : List (String × String)) (text : String) (topn : Nat) (htop : 0 < topn) :
    (tokenSet token = true → hf_icd_suggest raw table topn ≠ [] →
      suggest_icd_from_text token raw fz table text topn
        = (hf_icd_suggest raw table topn).take topn)
    ∧ (tokenSet token = true → hf_icd_suggest raw table topn = [] →
      suggest_icd_from_text token raw fz table text topn
        = heuristic_suggest fz table text topn)
    ∧ (tokenSet token = false → ∀ raw' : Except Unit String,
      suggest_icd_from_text token raw' fz table text topn
        = heuristic_suggest fz table text topn)
    ∧ (suggest_icd_from_text token raw fz table text topn
        = (hf_icd_suggest raw table topn).take topn
      ∨ suggest_icd_from_text token raw fz table text topn
        = heuristic_suggest fz table text topn) := by
  refine ⟨?_, ?_, ?_, ?_⟩
  · intro ht hne
    simp [suggest_icd_from_text, ht, hne]
  · intro ht he
    simp [suggest_icd_from_text, ht, he]
  · intro ht raw'
    simp [suggest_icd_from_text, ht]
  · by_cases ht : tokenSet token = true
    · by_cases he : hf_icd_suggest raw table topn = []
      · right; simp [suggest_icd_from_text, ht, he]
      · left; simp [suggest_icd_from_text, ht, he]
    · right
      have ht' : tokenSet token = false := by
        cases h : tokenSet token
        · rfl
        · exact absurd h ht
      simp [suggest_icd_from_text, ht']

/-- C1 witness: concrete instantiation, no credential configured. -/
theorem c1_suggest_strict_fallback_witness :
    suggest_icd_from_text none (Except.ok "junk") (fun _ _ _ => [])
      [("I10", "Essential hypertension")] "note" 1
      = heuristic_suggest (fun _ _ _ => []) [("I10", "Essential hypertension")] "note" 1 :=
  (c1_suggest_strict_fallback none (Except.ok "junk") (fun _ _ _ => [])
    [("I10", "Essential hypertension")] "note" 1 (by decide)).2.2.1 rfl (Except.ok "junk")

/-! ### Claim C9 -/

/-- The heuristic path truncates to `topn` at the end, so `topn = 0` yields
the empty list through the normal flow. -/
lemma heuristic_suggest_zero (fz : String → List String → Nat → List (String × Nat))
    (table : List (String × String)) (text : String) :
    heuristic_suggest fz table text 0 = [] := by
  unfold heuristic_suggest
  split
  · rfl
  · simp

/-- C9 counterexample: with a credential configured, a well-formed remote
response, a matching reference table and `topn = 0`, the entry point returns
the ordinary truncated result `[]` through its normal control flow — there is
no explicit rejection of the non-positive `topn` anywhere in
`suggest_icd_from_text`, contrary to the claim. -/
theorem c9_counterexample :
    suggest_icd_from_text (some "k")
      (Except.ok "\x7b\"icd10\":[\x7b\"code\":\"E11.9\"\x7d]\x7d")
      (fun _ _ _ => [("Essential hypertension", 95)])
      [("I10", "Essential hypertension")] "hypertension noted" 0 = [] := by decide

/-- C9 amended: the entry point performs no validation of `topn`; a
non-positive `topn` (0, as counts are naturals here) flows through the normal
remote/heuristic paths and the final truncation returns the empty sequence,
for every configuration, oracle, matcher, table and text. -/
theorem c9_no_rejection_amended (token : Option String) (raw : Except Unit String)
    (fz : String → List String → Nat → List (String × Nat))
    (table : List (String × String)) (text : String) :
    suggest_icd_from_text token raw fz table text 0 = [] := by
  unfold suggest_icd_from_text
  split
  · by_cases h : hf_icd_suggest raw table 0 = [] <;>
      simp [h, heuristic_suggest_zero]
  · exact heuristic_suggest_zero fz table text

/-! ### Claim C6 -/

/-- Unfolding step of `dedupAux` when the pair is kept. -/
lemma dedupAux_cons_pos {acc : List (String × String)} {c d : String}
    (rest : List (String × String)) (h : (acc.lookup c).isNone = true ∧ d ≠ "") :
    dedupAux acc ((c, d) :: rest) = dedupAux (acc ++ [(c, d)]) rest := by
  simp only [dedupAux]
  rw [if_pos h]

/-- Unfolding step of `dedupAux` when the pair is discarded. -/
lemma dedupAux_cons_neg {acc : List (String × String)} {c d : String}
    (rest : List (String × String)) (h : ¬((acc.lookup c).isNone = true ∧ d ≠ "")) :
    dedupAux acc ((c, d) :: rest) = dedupAux acc rest := by
  simp only [dedupAux]
  rw [if_neg h]

/-- The function `firstDesc` skips a head pair with a different code. -/
lemma firstDesc_cons_ne {rest : List (String × String)} {c c' d' : String} (h : c' ≠ c) :
    firstDesc ((c', d') :: rest) c = firstDesc rest c := by
  unfold firstDesc
  rw [List.filter_cons_of_neg (by simp [h])]

/-- The function `firstDesc` skips a head pair with an empty description. -/
lemma firstDesc_cons_empty {rest : List (String × String)} {c c' : String} :
    firstDesc ((c', "") :: rest) c = firstDesc rest c := by
  unfold firstDesc
  rw [List.filter_cons_of_neg (by simp)]

/-- The function `firstDesc` returns a matching non-empty head description. -/
lemma firstDesc_cons_self {rest : List (String × String)} {c d' : String} (hd : d' ≠ "") :
    firstDesc ((c, d') :: rest) c = some d' := by
  unfold firstDesc
  rw [List.filter_cons_of_pos (by simp [hd])]
  rfl

/-- A later pass of `dedupAux` never changes a binding that already exists. -/
lemma dedupAux_lookup_some :
    ∀ (rest acc : List (String × String)) (c : String) (d : String),
      acc.lookup c = some d → (dedupAux acc rest).lookup c = some d := by
  intro rest
  induction rest with
  | nil => intro acc c d h; simpa [dedupAux] using h
  | cons p rest ih =>
    intro acc c d h
    obtain ⟨c', d'⟩ := p
    by_cases hk : (acc.lookup c').isNone = true ∧ d' ≠ ""
    · rw [dedupAux_cons_pos rest hk]
      exact ih _ c d (by rw [List.lookup_append, h]; rfl)
    · rw [dedupAux_cons_neg rest hk]
      exact ih _ c d h

/-- For an unbound code, `dedupAux` binds it to the first non-empty
description the remaining pairs carry for it. -/
lemma dedupAux_lookup_none :
    ∀ (rest acc : List (String × String)) (c : String),
      acc.lookup c = none → (dedupAux acc rest).lookup c = firstDesc rest c := by
  intro rest
  induction rest with
  | nil => intro acc c h; simpa [dedupAux, firstDesc] using h
  | cons p rest ih =>
    intro acc c h
    obtain ⟨c', d'⟩ := p
    by_cases hk : (acc.lookup c').isNone = true ∧ d' ≠ ""
    · rw [dedupAux_cons_pos rest hk]
      by_cases hc : c = c'
      · subst hc
        have hval : (acc ++ [(c, d')]).lookup c = some d' := by
          rw [List.lookup_append, h]; simp
        rw [dedupAux_lookup_some rest _ c d' hval, firstDesc_cons_self hk.2]
      · have hval : (acc ++ [(c', d')]).lookup c = none := by
          rw [List.lookup_append, h]
          simp [List.lookup, show (c == c') = false from beq_eq_false_iff_ne.mpr hc]
        rw [ih _ c hval, firstDesc_cons_ne (fun hcc => hc hcc.symm)]
    · rw [dedupAux_cons_neg rest hk, ih _ c h]
      rcases not_and_or.mp hk with hb | hd
      · have hc : c ≠ c' := by
          intro hcc
          subst hcc
          rw [h] at hb
          exact hb rfl
        rw [firstDesc_cons_ne (fun hcc => hc hcc.symm)]
      · have hde : d' = "" := not_not.mp hd
        subst hde
        rw [firstDesc_cons_empty]

/-- The pass `dedupAux` preserves distinctness of codes and non-emptiness of
descriptions. -/
lemma dedupAux_nodup_ne :
    ∀ (rest acc : List (String × String)),
      (acc.map Prod.fst).Nodup → (∀ p ∈ acc, p.2 ≠ "") →
      ((dedupAux acc rest).map Prod.fst).Nodup ∧ ∀ p ∈ dedupAux acc rest, p.2 ≠ "" := by
  intro rest
  induction rest with
  | nil => intro acc h₁ h₂; exact ⟨h₁, h₂⟩
  | cons p rest ih =>
    intro acc h₁ h₂
    obtain ⟨c', d'⟩ := p
    by_cases hk : (acc.lookup c').isNone = true ∧ d' ≠ ""
    · rw [dedupAux_cons_pos rest hk]
      refine ih _ ?_ ?_
      · have hnm : c' ∉ acc.map Prod.fst := by
          have hno := List.lookup_eq_none_iff.mp (Option.isNone_iff_eq_none.mp hk.1)
          intro hmem
          obtain ⟨q, hq, hq'⟩ := List.mem_map.mp hmem
          exact absurd (by simp [hq'] : (c' == q.1) = true) (by simpa using hno q hq)
        have : (acc ++ [(c', d')]).map Prod.fst = acc.map Prod.fst ++ c' :: [] := by simp
        rw [this, List.nodup_middle]
        exact List.nodup_cons.mpr ⟨by simpa using hnm, by simpa using h₁⟩
      · intro q hq
        rcases List.mem_append.mp hq with h' | h'
        · exact h₂ q h'
        · simp only [List.mem_singleton] at h'
          subst h'
          exact hk.2
    · rw [dedupAux_cons_neg rest hk]
      exact ih _ h₁ h₂

/-- C6: for every sequence of emitted `(code, description)` pairs, the
deduplicated reference table has pairwise-distinct codes, only non-empty
descriptions, and maps each code to the description of the first pair that
carried that code with a non-empty description (later duplicates and
empty-description pairs are discarded). -/
theorem c6_dedup_first_wins (pairs : List (String × String)) :
    ((dedupPairs pairs).map Prod.fst).Nodup
    ∧ (∀ p ∈ dedupPairs pairs, p.2 ≠ "")
    ∧ ∀ c, (dedupPairs pairs).lookup c = firstDesc pairs c := by
  refine ⟨(dedupAux_nodup_ne pairs [] (by simp) (by simp)).1,
    (dedupAux_nodup_ne pairs [] (by simp) (by simp)).2, fun c => ?_⟩
  exact dedupAux_lookup_none pairs [] c rfl

/-! ### Claim C7 -/

/-- Characterization of the fallback fold of `rowPairs` for a fixed row
description. -/
lemma rowFold (d : String) :
    ∀ (l : List String) (acc : List (String × String)),
      l.foldl (fun acc v =>
        if isCodeCell v then
          (if pyStrip v ≠ "" ∧ d ≠ "" then acc ++ [(pyStrip v, d)] else acc)
        else acc) acc
      = acc ++ (if d = "" then [] else (l.filter isCodeCell).map (fun v => (pyStrip v, d))) := by
  intro l
  induction l with
  | nil => intro acc; by_cases hd : d = "" <;> simp [hd]
  | cons v l ih =>
    intro acc
    rw [List.foldl_cons]
    by_cases hv : isCodeCell v = true
    · by_cases hd : d = ""
      · rw [if_pos hv, if_neg (by simp [hd]), ih]
        simp [hd]
      · have hne : pyStrip v ≠ "" := by
          refine pyStrip_ne_empty ?_
          have hv' := hv
          simp only [isCodeCell, Bool.and_eq_true] at hv'
          exact hv'.1.2
        rw [if_pos hv, if_pos ⟨hne, hd⟩, ih]
        simp [hd, List.filter_cons_of_pos hv]
    · have hv' : isCodeCell v = false := by
        cases hb : isCodeCell v
        · rfl
        · exact absurd hb hv
      rw [if_neg (by simp [hv']), ih]
      by_cases hd : d = ""
      · simp [hd]
      · rw [if_neg hd, if_neg hd, List.filter_cons_of_neg hv]

/-- C7 counterexample: on the row `["B2", "  A1 A1 A1  ", "cccccccccccccccc"]`
the code pairs `"B2"` with the first mid-length cell (`"A1 A1 A1"` after
stripping), while the claim pairs it with the longest one
(`"cccccccccccccccc"`) and also treats the whitespace-padded second cell
(raw length 12, trimmed length 8) as a code.  The two disagree. -/
theorem c7_counterexample :
    rowPairs ["B2", "  A1 A1 A1  ", "cccccccccccccccc"] = [("B2", "A1 A1 A1")]
    ∧ rowPairsClaim ["B2", "  A1 A1 A1  ", "cccccccccccccccc"]
      = [("B2", "cccccccccccccccc"), ("A1 A1 A1", "cccccccccccccccc")] :=
  ⟨by decide, by decide⟩

/-- C7 amended: in the fallback branch, a cell is treated as a code when its
raw (untrimmed) length is at most 10 and it contains at least one letter and
one digit; every such cell of the row is paired with the stripped value of
the first — not the longest — cell whose raw length lies strictly between 10
and 400; when that stripped description is empty, or no such cell exists,
the row emits no pairs. -/
theorem c7_first_desc_amended (row : List String) :
    rowPairs row =
      if rowDesc row = "" then []
      else (row.filter isCodeCell).map (fun v => (pyStrip v, rowDesc row)) := by
  unfold rowPairs
  rw [rowFold (rowDesc row) row []]
  simp

/-! ### Claims C3, C4, C5 -/

/-- Field access on the single item `\x7b"code": v, "desc": w\x7d`. -/
lemma jGetD_code (v w : JVal) :
    jGetD [("code", v), ("desc", w)] "code" (JVal.jstr "") = v := by
  simp [jGetD, jGet?]

/-- Field access on the single item `\x7b"code": v, "desc": w\x7d`. -/
lemma jGetD_desc (v w : JVal) :
    jGetD [("code", v), ("desc", w)] "desc" (JVal.jstr "") = w := by
  simp [jGetD, jGet?, List.lookup]

/-- Full computation of the remote item-processing on a response object with
a single `\x7b"code": v, "desc": w\x7d` item: the item is accepted exactly when
its stripped code matches the ICD-10 pattern (an empty code never does), and
then contributes one candidate with score 90 and the stripped item
description, backfilled from the reference table when empty. -/
lemma hf_single (v w : JVal) (table : List (String × String)) (topn : Nat) :
    hfFromParsed (JVal.jobj [("icd10", JVal.jarr [JVal.jobj [("code", v), ("desc", w)]])])
        table topn
      = if icd10_ok (pyStrip (pyStr v)) then
          [⟨pyStrip (pyStr v),
            if pyStrip (pyStr w) = "" then (table.lookup (pyStrip (pyStr v))).getD ""
            else pyStrip (pyStr w), 90⟩]
        else [] := by
  have hget : jGet? [("icd10", JVal.jarr [JVal.jobj [("code", v), ("desc", w)]])] "icd10"
      = some (JVal.jarr [JVal.jobj [("code", v), ("desc", w)]]) := by
    simp [jGet?]
  simp only [hfFromParsed, hget, itemsLoop, itemDesc, jGetD_code, jGetD_desc]
  by_cases hcode : pyStrip (pyStr v) = ""
  · have hko : icd10_ok "" = false := by decide
    simp [hcode, hko]
  · by_cases hok : icd10_ok (pyStrip (pyStr v)) = true
    · simp [hcode, hok, itemsLoop, ite_self]
    · have hok' : icd10_ok (pyStrip (pyStr v)) = false := by
        cases hb : icd10_ok (pyStrip (pyStr v))
        · rfl
        · exact absurd hb hok
      simp [hcode, hok']

/-- C3 counterexample: the code `"AA1"` matches the claimed shape (letter
excluding U followed by two alphanumerics) but the regex in the code requires
a digit in second position, so the item contributes zero candidates; the
claim's "if and only if" fails.  The claim's own example `"11.9"` behaves as
stated. -/
theorem c3_counterexample :
    claimShape "AA1" = true ∧ icd10_ok "AA1" = false
    ∧ hf_icd_suggest
        (Except.ok "\x7b\"icd10\":[\x7b\"code\":\"AA1\",\"desc\":\"x\"\x7d]\x7d") [] 5 = []
    ∧ hf_icd_suggest
        (Except.ok "\x7b\"icd10\":[\x7b\"code\":\"11.9\",\"desc\":\"x\"\x7d]\x7d") [] 5 = [] :=
  ⟨by decide, by decide, by decide, by decide⟩

/-- C3 amended: a parsed item's stripped code is accepted if and only if it
matches the shape the regex actually enforces — one uppercase letter
excluding U, then one digit, then one digit-or-uppercase-letter, optionally
followed by a dot and 1-4 digits-or-uppercase-letters (`icd10_ok`); an item
whose stripped code is empty or non-conforming contributes zero candidates
wherever it sits in the item list, and a conforming one contributes exactly
one candidate. -/
theorem c3_code_filter_amended (v w : JVal) (table : List (String × String)) (topn : Nat)
    (items : List JVal) (acc : List Candidate) :
    (icd10_ok (pyStrip (pyStr v)) = false →
      itemsLoop table topn (JVal.jobj [("code", v), ("desc", w)] :: items) acc
        = itemsLoop table topn items acc)
    ∧ (icd10_ok (pyStrip (pyStr v)) = true →
      hfFromParsed (JVal.jobj [("icd10", JVal.jarr [JVal.jobj [("code", v), ("desc", w)]])])
          table topn
        = [⟨pyStrip (pyStr v),
            if pyStrip (pyStr w) = "" then (table.lookup (pyStrip (pyStr v))).getD ""
            else pyStrip (pyStr w), 90⟩]) := by
  constructor
  · intro hbad
    simp only [itemsLoop, jGetD_code, jGetD_desc]
    by_cases hcode : pyStrip (pyStr v) = ""
    · simp [hcode]
    · simp [hcode, hbad]
  · intro hok
    rw [hf_single, if_pos hok]

/-- C3 witness: the conforming code "E11.9" inside an item is accepted and
produces the single expected candidate. -/
theorem c3_code_filter_amended_witness :
    hfFromParsed
        (JVal.jobj [("icd10", JVal.jarr
          [JVal.jobj [("code", JVal.jstr "E11.9"), ("desc", JVal.jstr "")]])])
        [("E11.9", "table text")] 3
      = [⟨"E11.9", "table text", 90⟩] := by
  have h := (c3_code_filter_amended (JVal.jstr "E11.9") (JVal.jstr "")
    [("E11.9", "table text")] 3 [] []).2 (by decide)
  simpa using h

/-- Every candidate the remote item loop accumulates carries score 90. -/
lemma itemsLoop_score (table : List (String × String)) (topn : Nat) :
    ∀ (items : List JVal) (acc r : List Candidate),
      (∀ c ∈ acc, c.score = 90) → itemsLoop table topn items acc = some r →
      ∀ c ∈ r, c.score = 90 := by
  intro items
  induction items with
  | nil =>
    intro acc r hacc h
    simp only [itemsLoop] at h
    cases h
    exact hacc
  | cons it rest ih =>
    intro acc r hacc h
    cases it with
    | jobj kvs =>
      simp only [itemsLoop] at h
      by_cases hcode : pyStrip (pyStr (jGetD kvs "code" (JVal.jstr ""))) = ""
      · rw [if_pos hcode] at h
        exact ih acc r hacc h
      · rw [if_neg hcode] at h
        by_cases hok : icd10_ok (pyStrip (pyStr (jGetD kvs "code" (JVal.jstr "")))) = true
        · rw [if_pos hok] at h
          have hmem : ∀ c ∈ acc ++ [(⟨pyStrip (pyStr (jGetD kvs "code" (JVal.jstr ""))),
              itemDesc kvs table (pyStrip (pyStr (jGetD kvs "code" (JVal.jstr "")))),
              90⟩ : Candidate)], c.score = 90 := by
            intro c hc
            rcases List.mem_append.mp hc with h' | h'
            · exact hacc c h'
            · simp only [List.mem_singleton] at h'
              subst h'
              rfl
          by_cases hle : topn ≤ (acc ++ [(⟨pyStrip (pyStr (jGetD kvs "code" (JVal.jstr ""))),
              itemDesc kvs table (pyStrip (pyStr (jGetD kvs "code" (JVal.jstr "")))),
              90⟩ : Candidate)]).length
          · rw [if_pos hle] at h
            cases h
            exact hmem
          · rw [if_neg hle] at h
            exact ih _ r hmem h
        · rw [if_neg hok] at h
          exact ih acc r hacc h
    | jnull => simp [itemsLoop] at h
    | jbool b => simp [itemsLoop] at h
    | jint n => simp [itemsLoop] at h
    | jflt m s => simp [itemsLoop] at h
    | jstr s => simp [itemsLoop] at h
    | jarr xs => simp [itemsLoop] at h

/-- The remote item loop grows the accumulator to at most `topn` entries. -/
lemma itemsLoop_len (table : List (String × String)) (topn : Nat) :
    ∀ (items : List JVal) (acc r : List Candidate),
      acc.length < topn → itemsLoop table topn items acc = some r → r.length ≤ topn := by
  intro items
  induction items with
  | nil =>
    intro acc r hlt h
    simp only [itemsLoop] at h
    cases h
    omega
  | cons it rest ih =>
    intro acc r hlt h
    cases it with
    | jobj kvs =>
      simp only [itemsLoop] at h
      by_cases hcode : pyStrip (pyStr (jGetD kvs "code" (JVal.jstr ""))) = ""
      · rw [if_pos hcode] at h
        exact ih acc r hlt h
      · rw [if_neg hcode] at h
        by_cases hok : icd10_ok (pyStrip (pyStr (jGetD kvs "code" (JVal.jstr "")))) = true
        · rw [if_pos hok] at h
          by_cases hle : topn ≤ (acc ++ [(⟨pyStrip (pyStr (jGetD kvs "code" (JVal.jstr ""))),
              itemDesc kvs table (pyStrip (pyStr (jGetD kvs "code" (JVal.jstr "")))),
              90⟩ : Candidate)]).length
          · rw [if_pos hle] at h
            cases h
            simp only [List.length_append, List.length_singleton]
            omega
          · rw [if_neg hle] at h
            refine ih _ r ?_ h
            simp only [not_le] at hle
            exact hle
        · rw [if_neg hok] at h
          exact ih acc r hlt h
    | jnull => simp [itemsLoop] at h
    | jbool b => simp [itemsLoop] at h
    | jint n => simp [itemsLoop] at h
    | jflt m s => simp [itemsLoop] at h
    | jstr s => simp [itemsLoop] at h
    | jarr xs => simp [itemsLoop] at h

/-- When every dict item has a non-conforming (or empty) code, the item loop
adds nothing: it either completes with the unchanged accumulator or aborts on
a non-dict item. -/
lemma itemsLoop_all_bad (table : List (String × String)) (topn : Nat) :
    ∀ (items : List JVal) (acc : List Candidate),
      (∀ it ∈ items, ∀ kvs, it = JVal.jobj kvs →
        icd10_ok (pyStrip (pyStr (jGetD kvs "code" (JVal.jstr "")))) = false) →
      itemsLoop table topn items acc = some acc ∨ itemsLoop table topn items acc = none := by
  intro items
  induction items with
  | nil => intro acc _; left; rfl
  | cons it rest ih =>
    intro acc h
    cases it with
    | jobj kvs =>
      have hbad := h (JVal.jobj kvs) (by simp) kvs rfl
      have hrest : ∀ it ∈ rest, ∀ kvs', it = JVal.jobj kvs' →
          icd10_ok (pyStrip (pyStr (jGetD kvs' "code" (JVal.jstr "")))) = false :=
        fun it hit => h it (by simp [hit])
      simp only [itemsLoop]
      by_cases hcode : pyStrip (pyStr (jGetD kvs "code" (JVal.jstr ""))) = ""
      · rw [if_pos hcode]
        exact ih acc hrest
      · rw [if_neg hcode, if_neg (by simp [hbad])]
        exact ih acc hrest
    | jnull => right; simp [itemsLoop]
    | jbool b => right; simp [itemsLoop]
    | jint n => right; simp [itemsLoop]
    | jflt m s => right; simp [itemsLoop]
    | jstr s => right; simp [itemsLoop]
    | jarr xs => right; simp [itemsLoop]

/-- Every candidate of the parsed remote response carries score 90. -/
lemma hfFromParsed_score (v : JVal) (table : List (String × String)) (topn : Nat) :
    ∀ c ∈ hfFromParsed v table topn, c.score = 90 := by
  intro c hc
  cases v with
  | jobj kvs =>
    simp only [hfFromParsed] at hc
    split at hc
    · split at hc
      next r heq => exact itemsLoop_score table topn _ [] r (by simp) heq c hc
      next => simp at hc
    · simp at hc
    · simp at hc
  | jnull => simp [hfFromParsed] at hc
  | jbool b => simp [hfFromParsed] at hc
  | jint n => simp [hfFromParsed] at hc
  | jflt m s => simp [hfFromParsed] at hc
  | jstr s => simp [hfFromParsed] at hc
  | jarr xs => simp [hfFromParsed] at hc

/-- The parsed remote response yields at most `topn` candidates. -/
lemma hfFromParsed_len (v : JVal) (table : List (String × String)) (topn : Nat)
    (h : 0 < topn) : (hfFromParsed v table topn).length ≤ topn := by
  cases v with
  | jobj kvs =>
    simp only [hfFromParsed]
    split
    · split
      next r heq => exact itemsLoop_len table topn _ [] r (by simpa) heq
      next => simp
    · simp
    · simp
  | jnull => simp [hfFromParsed]
  | jbool b => simp [hfFromParsed]
  | jint n => simp [hfFromParsed]
  | jflt m s => simp [hfFromParsed]
  | jstr s => simp [hfFromParsed]
  | jarr xs => simp [hfFromParsed]

/-- Every candidate of the remote strategy carries score 90. -/
lemma hf_all_score (raw : Except Unit String) (table : List (String × String))
    (topn : Nat) : ∀ c ∈ hf_icd_suggest raw table topn, c.score = 90 := by
  intro c hc
  cases raw with
  | error e => simp [hf_icd_suggest] at hc
  | ok text =>
    simp only [hf_icd_suggest] at hc
    split at hc
    · simp at hc
    · split at hc
      · simp at hc
      · exact hfFromParsed_score _ table topn c hc

/-- C4 counterexample: at `topn = 0` the remote strategy can return one
candidate — the length check `len(results) >= topn` runs only after the
append — so "returns at most topn candidates for every input" fails. -/
theorem c4_topn_zero_counterexample :
    hf_icd_suggest
      (Except.ok "\x7b\"icd10\":[\x7b\"code\":\"I10\",\"desc\":\"Essential hypertension\"\x7d]\x7d")
      [] 0
      = [⟨"I10", "Essential hypertension", 90⟩] := by decide

/-- C4 amended: for every positive `topn`, the remote strategy returns at
most `topn` candidates, and every failure yields the empty sequence: an
exception anywhere inside the model call (transport failure, timeout, bad
status path that raises), a response with no brace span, a span that is not
valid JSON, and a response whose items all carry empty or non-conforming
codes.  (A missing credential never reaches this function through the entry
point — see C1.) -/
theorem c4_remote_failures_amended (raw : Except Unit String)
    (table : List (String × String)) (topn : Nat) (htop : 0 < topn) :
    (hf_icd_suggest raw table topn).length ≤ topn
    ∧ hf_icd_suggest (Except.error ()) table topn = []
    ∧ (∀ text, braceSpan? text.toList = none →
        hf_icd_suggest (Except.ok text) table topn = [])
    ∧ (∀ text span, braceSpan? text.toList = some span →
        jsonParse (String.mk span) = none → hf_icd_suggest (Except.ok text) table topn = [])
    ∧ (∀ (kvs : List (String × JVal)) (items : List JVal),
        jGet? kvs "icd10" = some (JVal.jarr items) →
        (∀ it ∈ items, ∀ kvs', it = JVal.jobj kvs' →
          icd10_ok (pyStrip (pyStr (jGetD kvs' "code" (JVal.jstr "")))) = false) →
        hfFromParsed (JVal.jobj kvs) table topn = []) := by
  refine ⟨?_, rfl, ?_, ?_, ?_⟩
  · cases raw with
    | error e => simp [hf_icd_suggest]
    | ok text =>
      simp only [hf_icd_suggest]
      split
      · simp
      · split
        · simp
        · exact hfFromParsed_len _ table topn htop
  · intro text h
    have h' : braceSpan? text.data = none := h
    simp [hf_icd_suggest, h, h']
  · intro text span h₁ h₂
    have h₁' : braceSpan? text.data = some span := h₁
    have h₂' : jsonParse (String.mk span) = none := h₂
    simp [hf_icd_suggest, h₁, h₁', h₂, h₂']
  · intro kvs items hg hbad
    simp only [hfFromParsed, hg]
    rcases itemsLoop_all_bad table topn items [] hbad with h | h <;> rw [h]

/-- C4 witness: concrete failure inputs at `topn = 1`. -/
theorem c4_remote_failures_amended_witness :
    hf_icd_suggest (Except.error ()) [] 1 = []
    ∧ (hf_icd_suggest (Except.ok "no json at all") [] 1).length ≤ 1 :=
  ⟨(c4_remote_failures_amended (Except.error ()) [] 1 (by decide)).2.1,
   (c4_remote_failures_amended (Except.ok "no json at all") [] 1 (by decide)).1⟩

/-- C5: parsing the exact response text
`\x7b"icd10":[\x7b"code":"E11.9","desc":"Type 2 diabetes mellitus without
complications"\x7d]\x7d` yields exactly one candidate with code `E11.9`, score 90
and the given description; in general every remote candidate carries the
fixed score 90, and an accepted single item's description comes from the item
when non-empty, else from the reference table by code, else is empty. -/
theorem c5_roundtrip_score_desc :
    hf_icd_suggest
      (Except.ok "\x7b\"icd10\":[\x7b\"code\":\"E11.9\",\"desc\":\"Type 2 diabetes mellitus without complications\"\x7d]\x7d")
      [] 5
      = [⟨"E11.9", "Type 2 diabetes mellitus without complications", 90⟩]
    ∧ (∀ (raw : Except Unit String) (table : List (String × String)) (topn : Nat),
        ∀ c ∈ hf_icd_suggest raw table topn, c.score = 90)
    ∧ (∀ (v w : JVal) (table : List (String × String)) (topn : Nat),
        icd10_ok (pyStrip (pyStr v)) = true →
        hfFromParsed (JVal.jobj [("icd10", JVal.jarr [JVal.jobj [("code", v), ("desc", w)]])])
            table topn
          = [⟨pyStrip (pyStr v),
              if pyStrip (pyStr w) = "" then (table.lookup (pyStrip (pyStr v))).getD ""
              else pyStrip (pyStr w), 90⟩]) :=
  ⟨by decide, hf_all_score,
   fun v w table topn hok => by rw [hf_single, if_pos hok]⟩

/-- C5 witness: an accepted item with empty description is backfilled from
the reference table. -/
theorem c5_roundtrip_score_desc_witness :
    hfFromParsed
        (JVal.jobj [("icd10", JVal.jarr
          [JVal.jobj [("code", JVal.jstr "I10"), ("desc", JVal.jstr "HTN")]])])
        [] 2
      = [⟨"I10", "HTN", 90⟩] := by
  have h := c5_roundtrip_score_desc.2.2 (JVal.jstr "I10") (JVal.jstr "HTN") [] 2 (by decide)
  rw [h]
  decide

/-! ### Claims C2 and C10 -/

/-- The bounded code loop preserves "codes are distinct and all recorded in
`seen`". -/
lemma addCodes_nodup (topn : Nat) (d : String) (sc : Nat) :
    ∀ (cs : List String) (res : List Candidate) (seen : List String),
      (res.map Candidate.code).Nodup → (∀ cd ∈ res, cd.code ∈ seen) →
      ((addCodes topn d sc cs (res, seen)).1.map Candidate.code).Nodup
      ∧ ∀ cd ∈ (addCodes topn d sc cs (res, seen)).1,
          cd.code ∈ (addCodes topn d sc cs (res, seen)).2 := by
  intro cs
  induction cs with
  | nil => intro res seen h₁ h₂; exact ⟨h₁, h₂⟩
  | cons c cs ih =>
    intro res seen h₁ h₂
    simp only [addCodes]
    by_cases hc : c ∈ seen
    · rw [if_pos hc]
      exact ih res seen h₁ h₂
    · rw [if_neg hc]
      have h₁' : ((res ++ [(⟨c, d, sc⟩ : Candidate)]).map Candidate.code).Nodup := by
        have hnm : c ∉ res.map Candidate.code := by
          intro hmem
          obtain ⟨cd, hcd, hcd'⟩ := List.mem_map.mp hmem
          exact hc (hcd' ▸ h₂ cd hcd)
        have : (res ++ [(⟨c, d, sc⟩ : Candidate)]).map Candidate.code
            = res.map Candidate.code ++ c :: [] := by simp
        rw [this, List.nodup_middle]
        exact List.nodup_cons.mpr ⟨by simpa using hnm, by simpa using h₁⟩
      have h₂' : ∀ cd ∈ res ++ [(⟨c, d, sc⟩ : Candidate)], cd.code ∈ c :: seen := by
        intro cd hcd
        rcases List.mem_append.mp hcd with h' | h'
        · exact List.mem_cons_of_mem c (h₂ cd h')
        · simp only [List.mem_singleton] at h'
          subst h'
          exact List.mem_cons_self c seen
      by_cases hl : topn ≤ (res ++ [(⟨c, d, sc⟩ : Candidate)]).length
      · rw [if_pos hl]
        exact ⟨h₁', h₂'⟩
      · rw [if_neg hl]
        exact ih _ _ h₁' h₂'

/-- The unbounded backfill code loop preserves the same invariant. -/
lemma addCodesNB_nodup (d : String) (sc : Nat) :
    ∀ (cs : List String) (res : List Candidate) (seen : List String),
      (res.map Candidate.code).Nodup → (∀ cd ∈ res, cd.code ∈ seen) →
      ((addCodesNB d sc cs (res, seen)).1.map Candidate.code).Nodup
      ∧ ∀ cd ∈ (addCodesNB d sc cs (res, seen)).1,
          cd.code ∈ (addCodesNB d sc cs (res, seen)).2 := by
  intro cs
  induction cs with
  | nil => intro res seen h₁ h₂; exact ⟨h₁, h₂⟩
  | cons c cs ih =>
    intro res seen h₁ h₂
    simp only [addCodesNB]
    by_cases hc : c ∈ seen
    · rw [if_pos hc]
      exact ih res seen h₁ h₂
    · rw [if_neg hc]
      refine ih _ _ ?_ ?_
      · have hnm : c ∉ res.map Candidate.code := by
          intro hmem
          obtain ⟨cd, hcd, hcd'⟩ := List.mem_map.mp hmem
          exact hc (hcd' ▸ h₂ cd hcd)
        have : (res ++ [(⟨c, d, sc⟩ : Candidate)]).map Candidate.code
            = res.map Candidate.code ++ c :: [] := by simp
        rw [this, List.nodup_middle]
        exact List.nodup_cons.mpr ⟨by simpa using hnm, by simpa using h₁⟩
      · intro cd hcd
        rcases List.mem_append.mp hcd with h' | h'
        · exact List.mem_cons_of_mem c (h₂ cd h')
        · simp only [List.mem_singleton] at h'
          subst h'
          exact List.mem_cons_self c seen

/-- The bulk phase preserves the invariant. -/
lemma bulkLoop_nodup (table : List (String × String)) (topn : Nat) :
    ∀ (ms : List (String × Nat)) (res : List Candidate) (seen : List String),
      (res.map Candidate.code).Nodup → (∀ cd ∈ res, cd.code ∈ seen) →
      ((bulkLoop table topn ms (res, seen)).1.map Candidate.code).Nodup
      ∧ ∀ cd ∈ (bulkLoop table topn ms (res, seen)).1,
          cd.code ∈ (bulkLoop table topn ms (res, seen)).2 := by
  intro ms
  induction ms with
  | nil => intro res seen h₁ h₂; exact ⟨h₁, h₂⟩
  | cons m ms ih =>
    intro res seen h₁ h₂
    obtain ⟨d, sc⟩ := m
    simp only [bulkLoop]
    by_cases hsc : sc < 40
    · rw [if_pos hsc]
      exact ih res seen h₁ h₂
    · rw [if_neg hsc]
      have hadd := addCodes_nodup topn d sc (codesFor table d) res seen h₁ h₂
      by_cases hl : topn ≤ (addCodes topn d sc (codesFor table d) (res, seen)).1.length
      · rw [if_pos hl]
        exact hadd
      · rw [if_neg hl]
        have := ih (addCodes topn d sc (codesFor table d) (res, seen)).1
          (addCodes topn d sc (codesFor table d) (res, seen)).2 hadd.1 hadd.2
        simpa using this

/-- One backfill keyword preserves the invariant. -/
lemma kwStep_nodup (fz : String → List String → Nat → List (String × Nat))
    (table : List (String × String)) (descs : List String) (kw : String) :
    ∀ (res : List Candidate) (seen : List String),
      (res.map Candidate.code).Nodup → (∀ cd ∈ res, cd.code ∈ seen) →
      ((kwStep fz table descs kw (res, seen)).1.map Candidate.code).Nodup
      ∧ ∀ cd ∈ (kwStep fz table descs kw (res, seen)).1,
          cd.code ∈ (kwStep fz table descs kw (res, seen)).2 := by
  unfold kwStep
  generalize fz kw descs 2 = ms
  induction ms with
  | nil => intro res seen h₁ h₂; exact ⟨h₁, h₂⟩
  | cons m ms ih =>
    intro res seen h₁ h₂
    rw [List.foldl_cons]
    by_cases hm : 50 ≤ m.2
    · rw [if_pos hm]
      have hadd := addCodesNB_nodup m.1 m.2 (codesFor table m.1) res seen h₁ h₂
      have := ih (addCodesNB m.1 m.2 (codesFor table m.1) (res, seen)).1
        (addCodesNB m.1 m.2 (codesFor table m.1) (res, seen)).2 hadd.1 hadd.2
      simpa using this
    · rw [if_neg hm]
      exact ih res seen h₁ h₂

/-- The whole backfill phase preserves the invariant. -/
lemma kwLoop_nodup (fz : String → List String → Nat → List (String × Nat))
    (table : List (String × String)) (descs : List String) :
    ∀ (kws : List String) (res : List Candidate) (seen : List String),
      (res.map Candidate.code).Nodup → (∀ cd ∈ res, cd.code ∈ seen) →
      ((kwLoop fz table descs kws (res, seen)).1.map Candidate.code).Nodup
      ∧ ∀ cd ∈ (kwLoop fz table descs kws (res, seen)).1,
          cd.code ∈ (kwLoop fz table descs kws (res, seen)).2 := by
  intro kws
  induction kws with
  | nil => intro res seen h₁ h₂; exact ⟨h₁, h₂⟩
  | cons kw kws ih =>
    intro res seen h₁ h₂
    simp only [kwLoop]
    have hstep := kwStep_nodup fz table descs kw res seen h₁ h₂
    have := ih (kwStep fz table descs kw (res, seen)).1
      (kwStep fz table descs kw (res, seen)).2 hstep.1 hstep.2
    simpa using this

/-- C2: for every fuzzy matcher, table, text and positive `topn`, the
heuristic strategy returns at most `topn` candidates with pairwise-distinct
codes, and the empty reference table yields the empty sequence. -/
theorem c2_heuristic_bounds (fz : String → List String → Nat → List (String × Nat))
    (table : List (String × String)) (text : String) (topn : Nat) (htop : 0 < topn) :
    (heuristic_suggest fz table text topn).length ≤ topn
    ∧ ((heuristic_suggest fz table text topn).map Candidate.code).Nodup
    ∧ (table = [] → heuristic_suggest fz table text topn = []) := by
  refine ⟨?_, ?_, fun h => by simp [heuristic_suggest, h]⟩
  · unfold heuristic_suggest
    split
    · simp
    · exact List.length_take_le _ _
  · unfold heuristic_suggest
    split
    · simp
    · have hbulk := bulkLoop_nodup table topn
        (fz (text ++ " " ++ String.intercalate " " (extractKeywords text))
          (table.map Prod.snd) (topn * 2)) [] [] (by simp) (by simp)
      set st := bulkLoop table topn
        (fz (text ++ " " ++ String.intercalate " " (extractKeywords text))
          (table.map Prod.snd) (topn * 2)) ([], []) with hst
      have hfin : (((if st.1.length < 2 ∧ extractKeywords text ≠ [] then
          kwLoop fz table (table.map Prod.snd) ((extractKeywords text).take 3) st
          else st)).1.map Candidate.code).Nodup := by
        split
        · have := kwLoop_nodup fz table (table.map Prod.snd)
            ((extractKeywords text).take 3) st.1 st.2 hbulk.1 hbulk.2
          simpa using this.1
        · exact hbulk.1
      rw [List.map_take]
      exact List.Nodup.sublist (List.take_sublist _ _) hfin

/-- C2 witness: concrete instantiation. -/
theorem c2_heuristic_bounds_witness :
    (heuristic_suggest (fun _ _ _ => [("Essential hypertension", 80)])
      [("I10", "Essential hypertension")] "note" 2).length ≤ 2
    ∧ ((heuristic_suggest (fun _ _ _ => [("Essential hypertension", 80)])
      [("I10", "Essential hypertension")] "note" 2).map Candidate.code).Nodup :=
  ⟨(c2_heuristic_bounds (fun _ _ _ => [("Essential hypertension", 80)])
      [("I10", "Essential hypertension")] "note" 2 (by decide)).1,
   (c2_heuristic_bounds (fun _ _ _ => [("Essential hypertension", 80)])
      [("I10", "Essential hypertension")] "note" 2 (by decide)).2.1⟩

/-- Codes resolved by reverse lookup really map to that description. -/
lemma codesFor_mem {table : List (String × String)} {d c : String}
    (h : c ∈ codesFor table d) : (c, d) ∈ table := by
  unfold codesFor at h
  obtain ⟨p, hp, hp'⟩ := List.mem_map.mp h
  have hf := List.mem_filter.mp hp
  have hd : p.2 = d := by simpa using hf.2
  have : p = (c, d) := Prod.ext hp' hd
  exact this ▸ hf.1

/-- In a table with pairwise-distinct codes, membership determines lookup. -/
lemma lookup_of_mem_nodup :
    ∀ {l : List (String × String)} {a b : String},
      (l.map Prod.fst).Nodup → (a, b) ∈ l → l.lookup a = some b := by
  intro l
  induction l with
  | nil => intro a b _ h; simp at h
  | cons p l ih =>
    intro a b hnd h
    obtain ⟨k, v⟩ := p
    rcases List.mem_cons.mp h with h' | h'
    · cases h'
      simp [List.lookup]
    · have hk : a ≠ k := by
        intro hak
        subst hak
        have : a ∈ l.map Prod.fst := List.mem_map.mpr ⟨(a, b), h', rfl⟩
        exact (List.nodup_cons.mp (by simpa using hnd)).1 this
      rw [List.lookup_cons]
      simp only [show (a == k) = false from beq_eq_false_iff_ne.mpr hk]
      exact ih (List.nodup_cons.mp (by simpa using hnd)).2 h'

/-- The bounded code loop preserves any per-candidate property satisfied by
the candidates it can append. -/
lemma addCodes_all (topn : Nat) (d : String) (sc : Nat) (P : Candidate → Prop) :
    ∀ (cs : List String) (res : List Candidate) (seen : List String),
      (∀ c ∈ cs, P ⟨c, d, sc⟩) → (∀ cd ∈ res, P cd) →
      ∀ cd ∈ (addCodes topn d sc cs (res, seen)).1, P cd := by
  intro cs
  induction cs with
  | nil => intro res seen _ hres; exact hres
  | cons c cs ih =>
    intro res seen hcs hres
    simp only [addCodes]
    have hres' : ∀ cd ∈ res ++ [(⟨c, d, sc⟩ : Candidate)], P cd := by
      intro cd hcd
      rcases List.mem_append.mp hcd with h' | h'
      · exact hres cd h'
      · simp only [List.mem_singleton] at h'
        exact h' ▸ hcs c (by simp)
    by_cases hc : c ∈ seen
    · rw [if_pos hc]
      exact ih res seen (fun x hx => hcs x (by simp [hx])) hres
    · rw [if_neg hc]
      by_cases hl : topn ≤ (res ++ [(⟨c, d, sc⟩ : Candidate)]).length
      · rw [if_pos hl]
        exact hres'
      · rw [if_neg hl]
        exact ih _ _ (fun x hx => hcs x (by simp [hx])) hres'

/-- The unbounded backfill code loop preserves the same kind of property. -/
lemma addCodesNB_all (d : String) (sc : Nat) (P : Candidate → Prop) :
    ∀ (cs : List String) (res : List Candidate) (seen : List String),
      (∀ c ∈ cs, P ⟨c, d, sc⟩) → (∀ cd ∈ res, P cd) →
      ∀ cd ∈ (addCodesNB d sc cs (res, seen)).1, P cd := by
  intro cs
  induction cs with
  | nil => intro res seen _ hres; exact hres
  | cons c cs ih =>
    intro res seen hcs hres
    simp only [addCodesNB]
    by_cases hc : c ∈ seen
    · rw [if_pos hc]
      exact ih res seen (fun x hx => hcs x (by simp [hx])) hres
    · rw [if_neg hc]
      refine ih _ _ (fun x hx => hcs x (by simp [hx])) ?_
      intro cd hcd
      rcases List.mem_append.mp hcd with h' | h'
      · exact hres cd h'
      · simp only [List.mem_singleton] at h'
        exact h' ▸ hcs c (by simp)

/-- Every candidate the bulk phase appends comes from a reverse lookup in
the table with a score of at least 40. -/
lemma bulkLoop_all (table : List (String × String)) (topn : Nat)
    (P : Candidate → Prop)
    (hgood : ∀ (d : String) (sc : Nat) (c : String),
      40 ≤ sc → c ∈ codesFor table d → P ⟨c, d, sc⟩) :
    ∀ (ms : List (String × Nat)) (res : List Candidate) (seen : List String),
      (∀ cd ∈ res, P cd) →
      ∀ cd ∈ (bulkLoop table topn ms (res, seen)).1, P cd := by
  intro ms
  induction ms with
  | nil => intro res seen hres; exact hres
  | cons m ms ih =>
    intro res seen hres
    obtain ⟨d, sc⟩ := m
    simp only [bulkLoop]
    by_cases hsc : sc < 40
    · rw [if_pos hsc]
      exact ih res seen hres
    · rw [if_neg hsc]
      have hadd := addCodes_all topn d sc P (codesFor table d) res seen
        (fun c hc => hgood d sc c (Nat.le_of_not_lt hsc) hc) hres
      by_cases hl : topn ≤ (addCodes topn d sc (codesFor table d) (res, seen)).1.length
      · rw [if_pos hl]
        exact hadd
      · rw [if_neg hl]
        have := ih (addCodes topn d sc (codesFor table d) (res, seen)).1
          (addCodes topn d sc (codesFor table d) (res, seen)).2 hadd
        simpa using this

/-- Every candidate a backfill keyword appends comes from a reverse lookup
in the table with a score of at least 50. -/
lemma kwStep_all (fz : String → List String → Nat → List (String × Nat))
    (table : List (String × String)) (descs : List String) (kw : String)
    (P : Candidate → Prop)
    (hgood : ∀ (d : String) (sc : Nat) (c : String),
      50 ≤ sc → c ∈ codesFor table d → P ⟨c, d, sc⟩) :
    ∀ (res : List Candidate) (seen : List String),
      (∀ cd ∈ res, P cd) →
      ∀ cd ∈ (kwStep fz table descs kw (res, seen)).1, P cd := by
  unfold kwStep
  generalize fz kw descs 2 = ms
  induction ms with
  | nil => intro res seen hres; exact hres
  | cons m ms ih =>
    intro res seen hres
    rw [List.foldl_cons]
    by_cases hm : 50 ≤ m.2
    · rw [if_pos hm]
      have hadd := addCodesNB_all m.1 m.2 P (codesFor table m.1) res seen
        (fun c hc => hgood m.1 m.2 c hm hc) hres
      have := ih (addCodesNB m.1 m.2 (codesFor table m.1) (res, seen)).1
        (addCodesNB m.1 m.2 (codesFor table m.1) (res, seen)).2 hadd
      simpa using this
    · rw [if_neg hm]
      exact ih res seen hres

/-- The whole backfill phase preserves the property. -/
lemma kwLoop_all (fz : String → List String → Nat → List (String × Nat))
    (table : List (String × String)) (descs : List String)
    (P : Candidate → Prop)
    (hgood : ∀ (d : String) (sc : Nat) (c : String),
      50 ≤ sc → c ∈ codesFor table d → P ⟨c, d, sc⟩) :
    ∀ (kws : List String) (res : List Candidate) (seen : List String),
      (∀ cd ∈ res, P cd) →
      ∀ cd ∈ (kwLoop fz table descs kws (res, seen)).1, P cd := by
  intro kws
  induction kws with
  | nil => intro res seen hres; exact hres
  | cons kw kws ih =>
    intro res seen hres
    simp only [kwLoop]
    have hstep := kwStep_all fz table descs kw P hgood res seen hres
    have := ih (kwStep fz table descs kw (res, seen)).1
      (kwStep fz table descs kw (res, seen)).2 hstep
    simpa using this

/-- C10: for every fuzzy matcher, text and `topn`, and every table with
pairwise-distinct codes (a Python dict), each candidate the heuristic
strategy returns is consistent with the reference table — its description is
exactly the table's description for its code (the code was resolved by
reverse lookup of that description) — and its score is at least 40 (bulk
matches pass the 40 threshold, keyword backfill the stricter 50). -/
theorem c10_heuristic_consistency (fz : String → List String → Nat → List (String × Nat))
    (table : List (String × String)) (text : String) (topn : Nat)
    (hnd : (table.map Prod.fst).Nodup) :
    ∀ cd ∈ heuristic_suggest fz table text topn,
      table.lookup cd.code = some cd.desc ∧ 40 ≤ cd.score := by
  intro cd hcd
  have hmem : (cd.code, cd.desc) ∈ table ∧ 40 ≤ cd.score := by
    revert hcd
    unfold heuristic_suggest
    split
    · intro hcd; simp at hcd
    · intro hcd
      have hcd' := List.take_subset _ _ hcd
      set P : Candidate → Prop := fun x => (x.code, x.desc) ∈ table ∧ 40 ≤ x.score with hP
      have hgood40 : ∀ (d : String) (sc : Nat) (c : String),
          40 ≤ sc → c ∈ codesFor table d → P ⟨c, d, sc⟩ :=
        fun d sc c hsc hc => ⟨codesFor_mem hc, hsc⟩
      have hbulk := bulkLoop_all table topn P hgood40
        (fz (text ++ " " ++ String.intercalate " " (extractKeywords text))
          (table.map Prod.snd) (topn * 2)) [] [] (by simp)
      set st := bulkLoop table topn
        (fz (text ++ " " ++ String.intercalate " " (extractKeywords text))
          (table.map Prod.snd) (topn * 2)) ([], []) with hst
      have hfin : ∀ x ∈ (if st.1.length < 2 ∧ extractKeywords text ≠ [] then
          kwLoop fz table (table.map Prod.snd) ((extractKeywords text).take 3) st
          else st).1, P x := by
        split
        · have := kwLoop_all fz table (table.map Prod.snd) P
            (fun d sc c hsc hc => hgood40 d sc c (by omega) hc)
            ((extractKeywords text).take 3) st.1 st.2 hbulk
          simpa using this
        · exact hbulk
      exact hfin cd hcd'
  exact ⟨lookup_of_mem_nodup hnd hmem.1, hmem.2⟩

/-- C10 witness: the single concrete candidate returned for a one-row table
satisfies both parts of the invariant. -/
theorem c10_heuristic_consistency_witness :
    List.lookup "I10" [("I10", "Essential hypertension")] = some "Essential hypertension"
    ∧ 40 ≤ 80 :=
  have h := c10_heuristic_consistency (fun _ _ _ => [("Essential hypertension", 80)])
    [("I10", "Essential hypertension")] "note" 2 (by decide)
    ⟨"I10", "Essential hypertension", 80⟩ (by decide)
  ⟨h.1, h.2⟩

/-! ### Claim C8 -/

/-- The head of a `dropWhile` result fails the predicate. -/
lemma dropWhile_head_false {p : Char → Bool} {l : List Char} {c : Char} {cs : List Char}
    (h : l.dropWhile p = c :: cs) : p c = false := by
  have := List.head?_dropWhile_not p l
  rw [h] at this
  simpa using this

/-- What the greedy regex `\x7b[\s\S]*\x7d` extracts: the span runs from the
first `\x7b` of the text (nothing before it is a `\x7b`) to the last `\x7d`
(nothing after it is a `\x7d`). -/
lemma braceSpan_decomp {cs span : List Char} (hs : braceSpan? cs = some span) :
    ∃ pre post, cs = pre ++ span ++ post
      ∧ (∀ c ∈ pre, c ≠ '{') ∧ (∀ c ∈ post, c ≠ '}')
      ∧ span.head? = some '{' ∧ span.getLast? = some '}' := by
  simp only [braceSpan?] at hs
  split at hs
  · cases hs
  · next hnil =>
    injection hs with hspan
    rw [hspan] at hnil
    generalize hA : cs.dropWhile (fun c => c != '{') = A at hspan
    have h1 : cs = cs.takeWhile (fun c => c != '{') ++ A := by
      rw [← hA]
      exact (List.takeWhile_append_dropWhile (fun c => c != '{') cs).symm
    have h2 : A = span ++ (A.reverse.takeWhile (fun c => c != '}')).reverse := by
      have h3 : A.reverse = A.reverse.takeWhile (fun c => c != '}')
          ++ A.reverse.dropWhile (fun c => c != '}') :=
        (List.takeWhile_append_dropWhile (fun c => c != '}') A.reverse).symm
      calc A = A.reverse.reverse := (List.reverse_reverse A).symm
        _ = (A.reverse.takeWhile (fun c => c != '}')
              ++ A.reverse.dropWhile (fun c => c != '}')).reverse := by rw [← h3]
        _ = (A.reverse.dropWhile (fun c => c != '}')).reverse
              ++ (A.reverse.takeWhile (fun c => c != '}')).reverse := by
              rw [List.reverse_append]
        _ = span ++ (A.reverse.takeWhile (fun c => c != '}')).reverse := by rw [hspan]
    refine ⟨cs.takeWhile (fun c => c != '{'),
      (A.reverse.takeWhile (fun c => c != '}')).reverse, ?_, ?_, ?_, ?_, ?_⟩
    · rw [List.append_assoc, ← h2, ← h1]
    · intro c hc
      have := List.mem_takeWhile_imp hc
      simpa using this
    · intro c hc
      have hc' := List.mem_reverse.mp hc
      have := List.mem_takeWhile_imp hc'
      simpa using this
    · cases hSP : span with
      | nil =>
        rw [hSP] at hnil
        exact absurd rfl hnil
      | cons a as =>
        have hrest : cs.dropWhile (fun c => c != '{')
            = a :: (as ++ (A.reverse.takeWhile (fun c => c != '}')).reverse) := by
          rw [hA]
          conv_lhs => rw [h2, hSP]
          rw [List.cons_append]
        have ha : a = '{' := by simpa using dropWhile_head_false hrest
        simp [hSP, ha]
    · have hrev : span.reverse
          = A.reverse.dropWhile (fun c => c != '}') := by
        rw [← hspan, List.reverse_reverse]
      cases hh : A.reverse.dropWhile (fun c => c != '}') with
      | nil =>
        exact absurd (by rw [← hspan, hh, List.reverse_nil]) hnil
      | cons b bs =>
        have hb : b = '}' := by simpa using dropWhile_head_false hh
        rw [← List.head?_reverse, hrev, hh, hb]
        rfl

/-- C8 counterexample: on a response containing two top-level JSON objects,
the greedy regex spans from the first `\x7b` to the last `\x7d`, the parse of
that span fails, and the strategy yields `[]`, whereas parsing the first
top-level object — as the claim describes — would yield one candidate. -/
theorem c8_counterexample :
    hf_icd_suggest
      (Except.ok "\x7b\"icd10\":[\x7b\"code\":\"E11.9\",\"desc\":\"D\"\x7d]\x7d\x7b\"x\":0\x7d")
      [] 5 = []
    ∧ hfClaimC8 "\x7b\"icd10\":[\x7b\"code\":\"E11.9\",\"desc\":\"D\"\x7d]\x7d\x7b\"x\":0\x7d"
      [] 5 = [⟨"E11.9", "D", 90⟩] :=
  ⟨by decide, by decide⟩

/-- C8 amended: the remote strategy extracts the greedy span from the first
`\x7b` of the raw text to its last `\x7d` — not the first top-level object's
matching structural end — and parses that substring; when no `\x7b` is
followed by a later `\x7d` it returns the empty sequence. -/
theorem c8_greedy_span_amended (text : String) (table : List (String × String)) (topn : Nat) :
    (braceSpan? text.toList = none → hf_icd_suggest (Except.ok text) table topn = [])
    ∧ ∀ span, braceSpan? text.toList = some span →
        (∃ pre post, text.toList = pre ++ span ++ post
          ∧ (∀ c ∈ pre, c ≠ '{') ∧ (∀ c ∈ post, c ≠ '}')
          ∧ span.head? = some '{' ∧ span.getLast? = some '}')
        ∧ hf_icd_suggest (Except.ok text) table topn
            = (match jsonParse (String.mk span) with
               | none => []
               | some v => hfFromParsed v table topn) := by
  constructor
  · intro h
    have h' : braceSpan? text.data = none := h
    simp [hf_icd_suggest, h, h']
  · intro span hs
    refine ⟨braceSpan_decomp hs, ?_⟩
    simp only [hf_icd_suggest]
    rw [hs]

/-- C8 witness: a text without any brace yields the empty sequence. -/
theorem c8_greedy_span_amended_witness :
    hf_icd_suggest (Except.ok "no braces here") [] 5 = [] :=
  (c8_greedy_span_amended "no braces here" [] 5).1 (by decide)
